import Mathlib

/-
Verification of the bencode codec (dht/bencode/bencode.go).

Strings from the Go side (byte strings) are modelled as `List Char`; the
decoder operates on the list of remaining characters, mirroring the Go
`Context` cursor (`ctx.b = ctx.b[k:]` becomes dropping a prefix).
Machine integers (Go `int`, `int64`) are modelled as `Int`/`Nat` with the
explicit 64-bit bound `maxInt64` where `strconv.ParseInt(_, 10, 64)`
checks overflow.

The recursive-descent parser's loops (`ParseArray`, `ParseObject`) recurse
on parser success, so the embedding threads an explicit fuel counter; the
entry point `Decode` supplies `3 * length + 2` fuel, and the termination
theorem shows this fuel is never exhausted, so the fuel is invisible to
any caller, matching the always-terminating Go functions.
-/

/-- Digit test from the source (`isDigit`): `c >= '0' && c <= '9'`. -/
def isDigit (c : Char) : Bool :=
  '0' ≤ c && c ≤ '9'

/-- Character for a single decimal digit value (used to model `fmt.Sprintf("%v", n)`
and `strconv` style decimal rendering of non-negative integers). -/
def digitChar (n : Nat) : Char := Char.ofNat (48 + n)

/-- Fuelled decimal rendering of a natural number, most significant digit first. -/
def natDigitsF : Nat → Nat → List Char
  | 0, _ => []
  | f + 1, n =>
    if n < 10 then [digitChar n]
    else natDigitsF f (n / 10) ++ [digitChar (n % 10)]

/-- Decimal rendering of a natural number (`fmt.Sprintf("%v", n)` for `n ≥ 0`). -/
def natDigits (n : Nat) : List Char := natDigitsF (n + 1) n

/-- Decimal rendering of a Go `int` (`fmt.Sprintf("%v", n)`). -/
def intRepr (n : Int) : List Char :=
  if n < 0 then '-' :: natDigits (-n).toNat else natDigits n.toNat

/-- Value of a string of decimal digits (the numeric value `strconv.ParseInt`
computes on an all-digit input). -/
def digitsVal (l : List Char) : Nat := l.foldl (fun a c => 10 * a + (c.toNat - 48)) 0

/-- Largest value of the host signed 64-bit integer type: `strconv.ParseInt(_, 10, 64)`
fails with an overflow error above this bound. -/
def maxInt64 : Nat := 9223372036854775807

/-- Model of `strconv.ParseInt(s, 10, 64)` restricted to the all-digit slices the
decoder feeds it: fails on an empty digit run and on 64-bit overflow. -/
def parseInt64 (l : List Char) : Option Nat :=
  if l = [] then none
  else if digitsVal l ≤ maxInt64 then some (digitsVal l) else none

/-- Source `toBencodeString`: `fmt.Sprintf("%v:%v", len(in), in)`. -/
def toBencodeString (s : List Char) : List Char :=
  natDigits s.length ++ ':' :: s

/-- Tagged value produced by the decoder and consumed by the encoder.  The Go
source stores all four payloads in one struct guarded by a `Kind` discriminant;
this is its closed-variant reading (see `GoValue` below for the literal struct
with an arbitrary `Kind` field, used for the panic-unreachability claim). -/
inductive BValue where
  | str (s : List Char)
  | num (n : Int)
  | arr (elems : List BValue)
  | obj (entries : List (List Char × BValue))

/-- Association-list model of a Go `map[string]*Value` write `m[k] = v`:
replaces the binding if the key is present, otherwise adds it. -/
def mapInsert {α : Type} : List (List Char × α) → List Char → α → List (List Char × α)
  | [], k, v => [(k, v)]
  | (k2, v2) :: rest, k, v =>
    if k2 = k then (k, v) :: rest else (k2, v2) :: mapInsert rest k v

mutual

/-- Source `Value.Encode`, on the closed variant set: length-prefixed string,
`i<digits>e`, `l...e`, `d...e`. -/
def encode : BValue → List Char
  | .str s => toBencodeString s
  | .num n => 'i' :: (intRepr n ++ ['e'])
  | .arr vs => 'l' :: (encodeList vs ++ ['e'])
  | .obj es => 'd' :: (encodeEntries es ++ ['e'])

/-- Concatenated encodings of the elements of an array, in stored order
(the `for i` loop of `Value.Encode`). -/
def encodeList : List BValue → List Char
  | [] => []
  | v :: vs => encode v ++ encodeList vs

/-- Concatenated `<encoded-key><encoded-value>` pairs of an object
(the `for k, v := range o` loop of `Value.Encode`). -/
def encodeEntries : List (List Char × BValue) → List Char
  | [] => []
  | (k, v) :: es => (toBencodeString k ++ encode v) ++ encodeEntries es

end

/-- Source `Value.Encode` at the public `string` type. -/
def BValue.Encode (v : BValue) : String := String.mk (encode v)

/-- Source `Context.RemoveACharacter`: consume one expected character or fail. -/
def RemoveACharacter (c : Char) (s : List Char) : Except String (List Char) :=
  match s with
  | [] => .error "syntax error"
  | x :: xs => if x = c then .ok xs else .error "syntax error"

/-- Source `Context.PeekACharacter`: look at the next character without consuming. -/
def PeekACharacter (s : List Char) : Except String Char :=
  match s with
  | [] => .error "syntax error"
  | x :: _ => .ok x

/-- Source `Context.GetString`: maximal digit run as decimal length, `:`,
then exactly that many raw bytes. -/
def GetString (s : List Char) : Except String (List Char × List Char) :=
  let digs := s.takeWhile isDigit
  let rest := s.dropWhile isDigit
  match parseInt64 digs with
  | none => .error "syntax error"
  | some len =>
    match RemoveACharacter ':' rest with
    | .error _ => .error "syntax error"
    | .ok r2 =>
      if r2.length < len then .error "syntax error"
      else .ok (r2.take len, r2.drop len)

/-- Source `Context.ParseString`: wrap `GetString` in a String-kind value. -/
def ParseString (s : List Char) : Except String (BValue × List Char) :=
  match GetString s with
  | .error e => .error e
  | .ok (str, r) => .ok (.str str, r)

/-- Source `Context.ParseNumber`: literal `i`, maximal digit run (no sign
handling), literal `e`. -/
def ParseNumber (s : List Char) : Except String (BValue × List Char) :=
  match RemoveACharacter 'i' s with
  | .error _ => .error "syntax error"
  | .ok r =>
    let digs := r.takeWhile isDigit
    let rest := r.dropWhile isDigit
    match parseInt64 digs with
    | none => .error "syntax error"
    | some n =>
      match RemoveACharacter 'e' rest with
      | .error _ => .error "syntax error"
      | .ok r2 => .ok (.num n, r2)

/-- Message of `errors.New(fmt.Sprintf("error character: %v", c))`: Go prints a
`byte` with `%v` as its decimal value. -/
def errChar (c : Char) : String := String.mk ("error character: ".data ++ natDigits c.toNat)

/-- Artificial fuel-exhaustion message of the fuelled parser; the termination
theorem shows `Decode` never produces it. -/
def fuelMsg : String := "out of fuel"

/-- One pending parser activation: the mutually recursive source functions
`ParseValue`, `ParseArray` (header and loop), `ParseObject` (header and loop). -/
inductive ParseCall where
  | value (s : List Char)
  | array (s : List Char)
  | arrayLoop (s : List Char) (acc : List BValue)
  | object (s : List Char)
  | objectLoop (s : List Char) (acc : List (List Char × BValue))

/-- Fuelled recursive-descent parser; each constructor case transcribes the body
of the corresponding source function.  `arrayLoop`/`objectLoop` are the `for`
loops of `ParseArray`/`ParseObject`: parse one element (and for objects first a
key), append it, then break if a literal `e` can be consumed. -/
def parseF : Nat → ParseCall → Except String (BValue × List Char)
  | 0, _ => .error fuelMsg
  | n + 1, .value s =>
    match PeekACharacter s with
    | .error e => .error e
    | .ok c =>
      if isDigit c then ParseString s
      else if c = 'i' then ParseNumber s
      else if c = 'l' then parseF n (.array s)
      else if c = 'd' then parseF n (.object s)
      else .error (errChar c)
  | n + 1, .array s =>
    match RemoveACharacter 'l' s with
    | .error _ => .error "syntax error"
    | .ok r => parseF n (.arrayLoop r [])
  | n + 1, .arrayLoop s acc =>
    match parseF n (.value s) with
    | .error e => .error e
    | .ok (v, r) =>
      let acc2 := acc ++ [v]
      match RemoveACharacter 'e' r with
      | .ok r2 => .ok (.arr acc2, r2)
      | .error _ => parseF n (.arrayLoop r acc2)
  | n + 1, .object s =>
    match RemoveACharacter 'd' s with
    | .error _ => .error "syntax error"
    | .ok r => parseF n (.objectLoop r [])
  | n + 1, .objectLoop s acc =>
    match GetString s with
    | .error e => .error e
    | .ok (key, r1) =>
      match parseF n (.value r1) with
      | .error e => .error e
      | .ok (v, r) =>
        let acc2 := mapInsert acc key v
        match RemoveACharacter 'e' r with
        | .ok r2 => .ok (.obj acc2, r2)
        | .error _ => parseF n (.objectLoop r acc2)

/-- Source `Context.ParseValue` (fuelled entry into the recursion). -/
def ParseValue (fuel : Nat) (s : List Char) : Except String (BValue × List Char) :=
  parseF fuel (.value s)

/-- Decoder on character lists: parse one value from a prefix, discard the
remaining cursor (trailing bytes are ignored, as in the source `Decode`). -/
def decodeL (l : List Char) : Except String BValue :=
  match ParseValue (3 * l.length + 2) l with
  | .error e => .error e
  | .ok (v, _) => .ok v

/-- Source `Decode`: run `ParseValue` on a fresh cursor over the whole input. -/
def Decode (b : String) : Except String BValue := decodeL b.data

/-- Kind discriminant constants from the source (`String Kind = 0`, `Number = 1`,
`Array = 2`, `Object = 3`); `Kind` is a plain host integer type. -/
def KindString : Int := 0

/-- Kind constant `Number = 1`. -/
def KindNumber : Int := 1

/-- Kind constant `Array = 2`. -/
def KindArray : Int := 2

/-- Kind constant `Object = 3`. -/
def KindObject : Int := 3

/-- Literal embedding of the source `Value` struct: an always-present `Kind`
field (an arbitrary host integer, NOT restricted to the four constants) next to
all four payload fields.  Used to settle the claim that the
`panic("impossible")` fallback of `Encode`/`Prettify` is unreachable for values
whose kinds are valid. -/
inductive GoValue where
  | mk (kind : Int) (string_ : List Char) (number : Int)
       (array : List GoValue) (object : List (List Char × GoValue))

/-- Field accessor for the discriminant. -/
def GoValue.kind : GoValue → Int
  | .mk k _ _ _ _ => k

/-- Source `Value.GetString` accessor. -/
def GoValue.GetString : GoValue → List Char
  | .mk _ s _ _ _ => s

/-- Source `Value.GetNumber` accessor. -/
def GoValue.GetNumber : GoValue → Int
  | .mk _ _ n _ _ => n

/-- Source `Value.GetArray` accessor. -/
def GoValue.GetArray : GoValue → List GoValue
  | .mk _ _ _ a _ => a

/-- Source `Value.GetObject` accessor. -/
def GoValue.GetObject : GoValue → List (List Char × GoValue)
  | .mk _ _ _ _ o => o

mutual

/-- Source `Value.Encode` on the literal struct: the `if/else if` chain on
`value.Kind`, with `none` standing for the `panic("impossible")` fallback. -/
def GoValue.Encode : GoValue → Option (List Char)
  | .mk k s n arr obj =>
    if k = KindString then some (toBencodeString s)
    else if k = KindNumber then some ('i' :: (intRepr n ++ ['e']))
    else if k = KindArray then
      match encodeGoList arr with
      | none => none
      | some body => some ('l' :: (body ++ ['e']))
    else if k = KindObject then
      match encodeGoEntries obj with
      | none => none
      | some body => some ('d' :: (body ++ ['e']))
    else none

/-- Element loop of `Value.Encode` for arrays; `none` as soon as any element
reaches the panic fallback. -/
def encodeGoList : List GoValue → Option (List Char)
  | [] => some []
  | v :: vs =>
    match v.Encode, encodeGoList vs with
    | some a, some b => some (a ++ b)
    | _, _ => none

/-- Entry loop of `Value.Encode` for objects. -/
def encodeGoEntries : List (List Char × GoValue) → Option (List Char)
  | [] => some []
  | (k, v) :: es =>
    match v.Encode, encodeGoEntries es with
    | some a, some b => some ((toBencodeString k ++ a) ++ b)
    | _, _ => none

end

/-- Trailing-comma stripping of `Value.Prettify`: drop the last character when
the string is non-empty and ends in a comma. -/
def stripComma (l : List Char) : List Char :=
  if l.getLast? = some ',' then l.dropLast else l

mutual

/-- Source `Value.Prettify` on the literal struct: JSON-like diagnostic
rendering, with `none` standing for the `panic("impossible")` fallback. -/
def GoValue.Prettify : GoValue → Option (List Char)
  | .mk k s n arr obj =>
    if k = KindString then some ('"' :: (s ++ ['"']))
    else if k = KindNumber then some (intRepr n)
    else if k = KindArray then
      match prettifyGoList arr with
      | none => none
      | some body => some (stripComma ('[' :: body) ++ [']'])
    else if k = KindObject then
      match prettifyGoEntries obj with
      | none => none
      | some body => some (stripComma ('{' :: body) ++ ['}'])
    else none

/-- Element loop of `Value.Prettify` for arrays: each element followed by a comma. -/
def prettifyGoList : List GoValue → Option (List Char)
  | [] => some []
  | v :: vs =>
    match v.Prettify, prettifyGoList vs with
    | some a, some b => some ((a ++ [',']) ++ b)
    | _, _ => none

/-- Entry loop of `Value.Prettify` for objects: `"key": value,` per entry. -/
def prettifyGoEntries : List (List Char × GoValue) → Option (List Char)
  | [] => some []
  | (k, v) :: es =>
    match v.Prettify, prettifyGoEntries es with
    | some a, some b => some ((('"' :: (k ++ ['"', ':', ' '])) ++ (a ++ [','])) ++ b)
    | _, _ => none

end

mutual

/-- Kind-validity of a struct value: the discriminant is one of the four
declared constants, and the same holds for every nested element (the condition
of the safety claim about `Encode`/`Prettify`). -/
def GoValue.kindValid : GoValue → Bool
  | .mk k _ _ arr obj =>
    (k = KindString || k = KindNumber || k = KindArray || k = KindObject) &&
      kindValidList arr && kindValidEntries obj

/-- Kind-validity of every element of a list of struct values. -/
def kindValidList : List GoValue → Bool
  | [] => true
  | v :: vs => v.kindValid && kindValidList vs

/-- Kind-validity of every value of an object entry list. -/
def kindValidEntries : List (List Char × GoValue) → Bool
  | [] => true
  | (_, v) :: es => v.kindValid && kindValidEntries es

end

/-- Host-language generic literal fed to the construction helpers `NewArray` and
`NewObject` (`interface{}` in the source): an integer, a text string, a nested
generic sequence, a nested string-keyed generic mapping — or any other host
value, which no `case` of the source `switch` matches. -/
inductive HostVal where
  | int (n : Int)
  | str (s : List Char)
  | arr (elems : List HostVal)
  | map (entries : List (List Char × HostVal))
  | other

/-- Source `NewString`. -/
def NewString (s : List Char) : BValue := .str s

/-- Source `NewNumber`. -/
def NewNumber (n : Int) : BValue := .num n

/-- Message of `errors.New("only support int, string, slice and map")`. -/
def unsupportedMsg : String := "only support int, string, slice and map"

mutual

/-- Source `NewArray` on a host sequence: convert each element in order via the
`switch`, aborting with the unsupported-type error at the first element of an
unrecognised shape. -/
def NewArray : List HostVal → Except String BValue
  | xs =>
    match newArrayElems xs with
    | .error e => .error e
    | .ok vs => .ok (.arr vs)

/-- Element loop of `NewArray` (the `for _, v := range` with the type `switch`). -/
def newArrayElems : List HostVal → Except String (List BValue)
  | [] => .ok []
  | .int n :: rest =>
    match newArrayElems rest with
    | .error e => .error e
    | .ok vs => .ok (NewNumber n :: vs)
  | .str s :: rest =>
    match newArrayElems rest with
    | .error e => .error e
    | .ok vs => .ok (NewString s :: vs)
  | .arr ys :: rest =>
    match NewArray ys with
    | .error e => .error e
    | .ok v =>
      match newArrayElems rest with
      | .error e => .error e
      | .ok vs => .ok (v :: vs)
  | .map kvs :: rest =>
    match NewObject kvs with
    | .error e => .error e
    | .ok v =>
      match newArrayElems rest with
      | .error e => .error e
      | .ok vs => .ok (v :: vs)
  | .other :: _ => .error unsupportedMsg

/-- Source `NewObject` on a host mapping: convert each value via the `switch`
and write it under its key, aborting with the unsupported-type error at the
first value of an unrecognised shape. -/
def NewObject : List (List Char × HostVal) → Except String BValue
  | kvs =>
    match newObjectEntries kvs with
    | .error e => .error e
    | .ok es => .ok (.obj es)

/-- Entry loop of `NewObject` (the `for k, v := range` with the type `switch`);
map writes are `mapInsert`, as in the decoder. -/
def newObjectEntries : List (List Char × HostVal) → Except String (List (List Char × BValue))
  | [] => .ok []
  | (k, .int n) :: rest =>
    match newObjectEntries rest with
    | .error e => .error e
    | .ok es => .ok (mapInsert es k (NewNumber n))
  | (k, .str s) :: rest =>
    match newObjectEntries rest with
    | .error e => .error e
    | .ok es => .ok (mapInsert es k (NewString s))
  | (k, .arr ys) :: rest =>
    match NewArray ys with
    | .error e => .error e
    | .ok v =>
      match newObjectEntries rest with
      | .error e => .error e
      | .ok es => .ok (mapInsert es k v)
  | (k, .map kvs) :: rest =>
    match NewObject kvs with
    | .error e => .error e
    | .ok v =>
      match newObjectEntries rest with
      | .error e => .error e
      | .ok es => .ok (mapInsert es k v)
  | (_, .other) :: _ => .error unsupportedMsg

end

mutual

/-- Does a host literal contain, anywhere, a value of a shape the construction
helpers do not support? -/
def hasOther : HostVal → Bool
  | .int _ => false
  | .str _ => false
  | .arr ys => hasOtherList ys
  | .map kvs => hasOtherEntries kvs
  | .other => true

/-- Containment of an unsupported shape in a host sequence. -/
def hasOtherList : List HostVal → Bool
  | [] => false
  | v :: vs => hasOther v || hasOtherList vs

/-- Containment of an unsupported shape in a host mapping. -/
def hasOtherEntries : List (List Char × HostVal) → Bool
  | [] => false
  | (_, v) :: vs => hasOther v || hasOtherEntries vs

end

theorem digitChar_isDigit (d : Nat) (h : d < 10) : isDigit (digitChar d) = true := by
  interval_cases d <;> decide

theorem digitChar_toNat (d : Nat) (h : d < 10) : (digitChar d).toNat = 48 + d := by
  interval_cases d <;> decide

theorem natDigitsF_ne_nil (f n : Nat) (h : n < f) : natDigitsF f n ≠ [] := by
  induction f generalizing n with
  | zero => omega
  | succ f ih =>
    rw [natDigitsF]
    by_cases h10 : n < 10 <;> simp [h10]

theorem natDigitsF_all_digits (f n : Nat) (h : n < f) :
    ∀ c ∈ natDigitsF f n, isDigit c = true := by
  induction f generalizing n with
  | zero => omega
  | succ f ih =>
    rw [natDigitsF]
    by_cases h10 : n < 10
    · simp only [h10, if_true, List.mem_singleton]
      rintro c rfl
      exact digitChar_isDigit n h10
    · simp only [h10, if_false, List.mem_append, List.mem_singleton]
      rintro c (hc | rfl)
      · exact ih (n / 10) (by omega) c hc
      · exact digitChar_isDigit (n % 10) (Nat.mod_lt n (by omega))

theorem digitsVal_append (l : List Char) (c : Char) :
    digitsVal (l ++ [c]) = 10 * digitsVal l + (c.toNat - 48) := by
  simp [digitsVal, List.foldl_append]

theorem natDigitsF_val (f n : Nat) (h : n < f) : digitsVal (natDigitsF f n) = n := by
  induction f generalizing n with
  | zero => omega
  | succ f ih =>
    rw [natDigitsF]
    by_cases h10 : n < 10
    · simp only [h10, if_true]
      show digitsVal [digitChar n] = n
      simp [digitsVal, digitChar_toNat n h10]
    · simp only [h10, if_false]
      rw [digitsVal_append, ih (n / 10) (by omega),
        digitChar_toNat (n % 10) (Nat.mod_lt n (by omega))]
      omega

theorem natDigits_ne_nil (n : Nat) : natDigits n ≠ [] :=
  natDigitsF_ne_nil (n + 1) n (Nat.lt_succ_self n)

theorem natDigits_all_digits (n : Nat) : ∀ c ∈ natDigits n, isDigit c = true :=
  natDigitsF_all_digits (n + 1) n (Nat.lt_succ_self n)

theorem natDigits_val (n : Nat) : digitsVal (natDigits n) = n :=
  natDigitsF_val (n + 1) n (Nat.lt_succ_self n)

theorem RemoveACharacter_ok_iff (c : Char) (s r : List Char) :
    RemoveACharacter c s = .ok r ↔ s = c :: r := by
  cases s with
  | nil => simp [RemoveACharacter]
  | cons x xs =>
    simp only [RemoveACharacter]
    split_ifs with hx
    · subst hx; simp
    · simp [hx]

theorem RemoveACharacter_error_head (c x : Char) (xs : List Char) (e : String)
    (h : RemoveACharacter c (x :: xs) = .error e) : x ≠ c := by
  intro hx
  subst hx
  simp [RemoveACharacter] at h

theorem takeWhile_all_append (p : Char → Bool) (d : List Char) (x : Char) (r : List Char)
    (hall : ∀ c ∈ d, p c = true) (hx : p x = false) :
    (d ++ x :: r).takeWhile p = d ∧ (d ++ x :: r).dropWhile p = x :: r := by
  induction d with
  | nil => simp [List.takeWhile_cons, List.dropWhile_cons, hx]
  | cons a d ih =>
    have ha : p a = true := hall a (by simp)
    have ih2 := ih (fun c hc => hall c (by simp [hc]))
    simp only [List.cons_append, List.takeWhile_cons, List.dropWhile_cons, ha, if_true]
    exact ⟨by rw [ih2.1], ih2.2⟩

theorem dropWhile_ne_nil_append (p : Char → Bool) (s t : List Char)
    (h : s.dropWhile p ≠ []) :
    (s ++ t).takeWhile p = s.takeWhile p ∧ (s ++ t).dropWhile p = s.dropWhile p ++ t := by
  induction s with
  | nil => simp [List.dropWhile] at h
  | cons a s ih =>
    by_cases hpa : p a
    · simp only [List.dropWhile_cons, hpa, if_true] at h
      have ih2 := ih h
      simp only [List.cons_append, List.takeWhile_cons, List.dropWhile_cons, hpa, if_true]
      exact ⟨by rw [ih2.1], ih2.2⟩
    · simp [List.takeWhile_cons, List.dropWhile_cons, hpa]

theorem parseInt64_natDigits (n : Nat) (h : n ≤ maxInt64) :
    parseInt64 (natDigits n) = some n := by
  simp only [parseInt64, natDigits_val]
  rw [if_neg (natDigits_ne_nil n), if_pos h]

theorem parseInt64_nil : parseInt64 [] = none := by
  simp [parseInt64]

theorem GetString_complete (s rest : List Char) (h : s.length ≤ maxInt64) :
    GetString (toBencodeString s ++ rest) = .ok (s, rest) := by
  have hsplit : toBencodeString s ++ rest = natDigits s.length ++ ':' :: (s ++ rest) := by
    simp [toBencodeString]
  rw [hsplit]
  obtain ⟨htw, hdw⟩ := takeWhile_all_append isDigit (natDigits s.length) ':' (s ++ rest)
    (natDigits_all_digits s.length) (by decide)
  have hrc : RemoveACharacter ':' (':' :: (s ++ rest)) = .ok (s ++ rest) := by
    simp [RemoveACharacter]
  simp only [GetString, htw, hdw, parseInt64_natDigits s.length h, hrc]
  rw [if_neg (by simp only [List.length_append]; omega)]
  rw [List.take_left, List.drop_left]

theorem GetString_append (s t a r : List Char) (h : GetString s = .ok (a, r)) :
    GetString (s ++ t) = .ok (a, r ++ t) := by
  simp only [GetString] at h
  cases hpi : parseInt64 (s.takeWhile isDigit) with
  | none => simp only [hpi] at h; exact Except.noConfusion h
  | some L =>
    simp only [hpi] at h
    cases hrc : RemoveACharacter ':' (s.dropWhile isDigit) with
    | error e => simp only [hrc] at h; exact Except.noConfusion h
    | ok r2 =>
      simp only [hrc] at h
      split_ifs at h with hlen
      obtain ⟨rfl, rfl⟩ := h
      have hrest : s.dropWhile isDigit = ':' :: r2 := (RemoveACharacter_ok_iff _ _ _).mp hrc
      have hdne : s.dropWhile isDigit ≠ [] := by rw [hrest]; simp
      obtain ⟨htw, hdw⟩ := dropWhile_ne_nil_append isDigit s t hdne
      have hL : L ≤ r2.length := Nat.not_lt.mp hlen
      have hrc2 : RemoveACharacter ':' (':' :: (r2 ++ t)) = .ok (r2 ++ t) := by
        simp [RemoveACharacter]
      rw [hrest] at hdw
      simp only [GetString, htw, hdw, hpi, List.cons_append, hrc2]
      rw [if_neg (by simp only [List.length_append]; omega)]
      rw [List.take_append_of_le_length hL, List.drop_append_of_le_length hL]

theorem GetString_length (s a r : List Char) (h : GetString s = .ok (a, r)) :
    r.length + 2 ≤ s.length := by
  simp only [GetString] at h
  cases hpi : parseInt64 (s.takeWhile isDigit) with
  | none => simp only [hpi] at h; exact Except.noConfusion h
  | some L =>
    simp only [hpi] at h
    cases hrc : RemoveACharacter ':' (s.dropWhile isDigit) with
    | error e => simp only [hrc] at h; exact Except.noConfusion h
    | ok r2 =>
      simp only [hrc] at h
      split_ifs at h with hlen
      obtain ⟨rfl, rfl⟩ := h
      have hrest : s.dropWhile isDigit = ':' :: r2 := (RemoveACharacter_ok_iff _ _ _).mp hrc
      have hdne : s.takeWhile isDigit ≠ [] := by
        intro hnil
        rw [hnil, parseInt64_nil] at hpi
        exact Option.noConfusion hpi
      have hlen2 : (s.takeWhile isDigit).length + (s.dropWhile isDigit).length = s.length := by
        rw [← List.length_append, List.takeWhile_append_dropWhile]
      have h1 : 1 ≤ (s.takeWhile isDigit).length := by
        cases hq : s.takeWhile isDigit with
        | nil => exact absurd hq hdne
        | cons _ _ => simp
      have h2 : (r2.drop L).length ≤ r2.length := by simp
      rw [hrest] at hlen2
      simp only [List.length_cons] at hlen2
      omega

theorem GetString_error (s : List Char) (e : String) (h : GetString s = .error e) :
    e = "syntax error" := by
  simp only [GetString] at h
  cases hpi : parseInt64 (s.takeWhile isDigit) with
  | none =>
    simp only [hpi] at h
    exact (Except.error.inj h).symm
  | some L =>
    simp only [hpi] at h
    cases hrc : RemoveACharacter ':' (s.dropWhile isDigit) with
    | error e2 =>
      simp only [hrc] at h
      exact (Except.error.inj h).symm
    | ok r2 =>
      simp only [hrc] at h
      split_ifs at h with hlen
      exact (Except.error.inj h).symm

theorem ParseString_complete (s rest : List Char) (h : s.length ≤ maxInt64) :
    ParseString (toBencodeString s ++ rest) = .ok (.str s, rest) := by
  simp [ParseString, GetString_complete s rest h]

theorem ParseString_append (s t : List Char) (v : BValue) (r : List Char)
    (h : ParseString s = .ok (v, r)) : ParseString (s ++ t) = .ok (v, r ++ t) := by
  simp only [ParseString] at h
  cases hg : GetString s with
  | error e => simp only [hg] at h; exact Except.noConfusion h
  | ok p =>
    obtain ⟨a, r0⟩ := p
    simp only [hg] at h
    obtain ⟨rfl, rfl⟩ := h
    simp only [ParseString, GetString_append s t a r hg]

theorem ParseString_length (s : List Char) (v : BValue) (r : List Char)
    (h : ParseString s = .ok (v, r)) : r.length + 2 ≤ s.length := by
  simp only [ParseString] at h
  cases hg : GetString s with
  | error e => simp only [hg] at h; exact Except.noConfusion h
  | ok p =>
    obtain ⟨a, r0⟩ := p
    simp only [hg] at h
    obtain ⟨rfl, rfl⟩ := h
    exact GetString_length s a r hg

theorem ParseString_error (s : List Char) (e : String) (h : ParseString s = .error e) :
    e = "syntax error" := by
  simp only [ParseString] at h
  cases hg : GetString s with
  | error e2 =>
    simp only [hg] at h
    exact (Except.error.inj h) ▸ GetString_error s e2 hg
  | ok p =>
    obtain ⟨a, r0⟩ := p
    simp only [hg] at h
    exact Except.noConfusion h

theorem ParseNumber_complete (m : Nat) (rest : List Char) (h : m ≤ maxInt64) :
    ParseNumber ('i' :: (natDigits m ++ 'e' :: rest)) = .ok (.num (m : Int), rest) := by
  have hrm : RemoveACharacter 'i' ('i' :: (natDigits m ++ 'e' :: rest)) =
      .ok (natDigits m ++ 'e' :: rest) := by simp [RemoveACharacter]
  obtain ⟨htw, hdw⟩ := takeWhile_all_append isDigit (natDigits m) 'e' rest
    (natDigits_all_digits m) (by decide)
  have hre : RemoveACharacter 'e' ('e' :: rest) = .ok rest := by simp [RemoveACharacter]
  simp only [ParseNumber, hrm, htw, hdw, parseInt64_natDigits m h, hre]

theorem ParseNumber_append (s t : List Char) (v : BValue) (r : List Char)
    (h : ParseNumber s = .ok (v, r)) : ParseNumber (s ++ t) = .ok (v, r ++ t) := by
  simp only [ParseNumber] at h
  cases hri : RemoveACharacter 'i' s with
  | error e => simp only [hri] at h; exact Except.noConfusion h
  | ok r1 =>
    simp only [hri] at h
    cases hpi : parseInt64 (r1.takeWhile isDigit) with
    | none => simp only [hpi] at h; exact Except.noConfusion h
    | some n =>
      simp only [hpi] at h
      cases hre : RemoveACharacter 'e' (r1.dropWhile isDigit) with
      | error e => simp only [hre] at h; exact Except.noConfusion h
      | ok r2 =>
        simp only [hre] at h
        obtain ⟨rfl, rfl⟩ := h
        have hs : s = 'i' :: r1 := (RemoveACharacter_ok_iff _ _ _).mp hri
        subst hs
        have hri2 : RemoveACharacter 'i' ('i' :: (r1 ++ t)) = .ok (r1 ++ t) := by
          simp [RemoveACharacter]
        have hrest : r1.dropWhile isDigit = 'e' :: r := (RemoveACharacter_ok_iff _ _ _).mp hre
        have hdne : r1.dropWhile isDigit ≠ [] := by rw [hrest]; simp
        obtain ⟨htw, hdw⟩ := dropWhile_ne_nil_append isDigit r1 t hdne
        rw [hrest] at hdw
        have hre2 : RemoveACharacter 'e' ('e' :: (r ++ t)) = .ok (r ++ t) := by
          simp [RemoveACharacter]
        simp only [List.cons_append] at hdw ⊢
        simp only [ParseNumber, hri2, htw, hdw, hpi, hre2]

theorem ParseNumber_length (s : List Char) (v : BValue) (r : List Char)
    (h : ParseNumber s = .ok (v, r)) : r.length + 3 ≤ s.length := by
  simp only [ParseNumber] at h
  cases hri : RemoveACharacter 'i' s with
  | error e => simp only [hri] at h; exact Except.noConfusion h
  | ok r1 =>
    simp only [hri] at h
    cases hpi : parseInt64 (r1.takeWhile isDigit) with
    | none => simp only [hpi] at h; exact Except.noConfusion h
    | some n =>
      simp only [hpi] at h
      cases hre : RemoveACharacter 'e' (r1.dropWhile isDigit) with
      | error e => simp only [hre] at h; exact Except.noConfusion h
      | ok r2 =>
        simp only [hre] at h
        obtain ⟨rfl, rfl⟩ := h
        have hs : s = 'i' :: r1 := (RemoveACharacter_ok_iff _ _ _).mp hri
        subst hs
        have hrest : r1.dropWhile isDigit = 'e' :: r := (RemoveACharacter_ok_iff _ _ _).mp hre
        have hdne : r1.takeWhile isDigit ≠ [] := by
          intro hnil
          rw [hnil, parseInt64_nil] at hpi
          exact Option.noConfusion hpi
        have hlen2 : (r1.takeWhile isDigit).length + (r1.dropWhile isDigit).length = r1.length := by
          rw [← List.length_append, List.takeWhile_append_dropWhile]
        have h1 : 1 ≤ (r1.takeWhile isDigit).length := by
          cases hq : r1.takeWhile isDigit with
          | nil => exact absurd hq hdne
          | cons _ _ => simp
        rw [hrest] at hlen2
        simp only [List.length_cons] at hlen2 ⊢
        omega

theorem ParseNumber_error (s : List Char) (e : String) (h : ParseNumber s = .error e) :
    e = "syntax error" := by
  simp only [ParseNumber] at h
  cases hri : RemoveACharacter 'i' s with
  | error e2 =>
    simp only [hri] at h
    exact (Except.error.inj h).symm
  | ok r1 =>
    simp only [hri] at h
    cases hpi : parseInt64 (r1.takeWhile isDigit) with
    | none =>
      simp only [hpi] at h
      exact (Except.error.inj h).symm
    | some n =>
      simp only [hpi] at h
      cases hre : RemoveACharacter 'e' (r1.dropWhile isDigit) with
      | error e2 =>
        simp only [hre] at h
        exact (Except.error.inj h).symm
      | ok r2 =>
        simp only [hre] at h
        exact Except.noConfusion h

/-- Input component of a parser activation. -/
def callInput : ParseCall → List Char
  | .value s => s
  | .array s => s
  | .arrayLoop s _ => s
  | .object s => s
  | .objectLoop s _ => s

/-- Same parser activation over the input extended by a suffix. -/
def callAppend : ParseCall → List Char → ParseCall
  | .value s, t => .value (s ++ t)
  | .array s, t => .array (s ++ t)
  | .arrayLoop s acc, t => .arrayLoop (s ++ t) acc
  | .object s, t => .object (s ++ t)
  | .objectLoop s acc, t => .objectLoop (s ++ t) acc

theorem parseF_value_nil (n : Nat) (x : BValue × List Char) :
    parseF n (.value []) ≠ .ok x := by
  cases n with
  | zero => simp [parseF]
  | succ n => simp [parseF, PeekACharacter]

theorem parseF_arrayLoop_nil (n : Nat) (acc : List BValue) (x : BValue × List Char) :
    parseF n (.arrayLoop [] acc) ≠ .ok x := by
  cases n with
  | zero => simp [parseF]
  | succ n =>
    intro h
    simp only [parseF] at h
    cases hv : parseF n (.value []) with
    | error e => simp only [hv] at h; exact Except.noConfusion h
    | ok y => exact parseF_value_nil n y hv

theorem GetString_nil : GetString ([] : List Char) = .error "syntax error" := rfl

theorem parseF_objectLoop_nil (n : Nat) (acc : List (List Char × BValue))
    (x : BValue × List Char) : parseF n (.objectLoop [] acc) ≠ .ok x := by
  cases n with
  | zero => simp [parseF]
  | succ n =>
    intro h
    simp only [parseF, GetString_nil] at h
    exact Except.noConfusion h

theorem parseF_consume (n : Nat) : ∀ (c : ParseCall) (v : BValue) (r : List Char),
    parseF n c = .ok (v, r) → r.length < (callInput c).length := by
  induction n with
  | zero => intro c v r h; simp [parseF] at h
  | succ n ih =>
    intro c v r h
    cases c with
    | value s =>
      cases s with
      | nil => exact absurd h (parseF_value_nil _ _)
      | cons c0 s2 =>
        simp only [parseF, PeekACharacter] at h
        split_ifs at h with hd hi hl hd2
        · have hlen := ParseString_length _ _ _ h
          simp only [callInput, List.length_cons] at hlen ⊢
          omega
        · have hlen := ParseNumber_length _ _ _ h
          simp only [callInput, List.length_cons] at hlen ⊢
          omega
        · exact ih (.array (c0 :: s2)) v r h
        · exact ih (.object (c0 :: s2)) v r h
    | array s =>
      simp only [parseF] at h
      cases hrc : RemoveACharacter 'l' s with
      | error e => simp only [hrc] at h; exact Except.noConfusion h
      | ok r1 =>
        simp only [hrc] at h
        have h1 := ih (.arrayLoop r1 []) v r h
        have hs : s = 'l' :: r1 := (RemoveACharacter_ok_iff _ _ _).mp hrc
        subst hs
        simp only [callInput, List.length_cons] at h1 ⊢
        omega
    | arrayLoop s acc =>
      simp only [parseF] at h
      cases hv : parseF n (.value s) with
      | error e => simp only [hv] at h; exact Except.noConfusion h
      | ok p =>
        obtain ⟨v1, r1⟩ := p
        simp only [hv] at h
        have h1 := ih (.value s) v1 r1 hv
        simp only [callInput] at h1
        cases hre : RemoveACharacter 'e' r1 with
        | ok r2 =>
          simp only [hre] at h
          obtain ⟨rfl, rfl⟩ := h
          have hr1 : r1 = 'e' :: r := (RemoveACharacter_ok_iff _ _ _).mp hre
          subst hr1
          simp only [callInput, List.length_cons] at h1 ⊢
          omega
        | error e =>
          simp only [hre] at h
          have h2 := ih (.arrayLoop r1 (acc ++ [v1])) v r h
          simp only [callInput] at h2 ⊢
          omega
    | object s =>
      simp only [parseF] at h
      cases hrc : RemoveACharacter 'd' s with
      | error e => simp only [hrc] at h; exact Except.noConfusion h
      | ok r1 =>
        simp only [hrc] at h
        have h1 := ih (.objectLoop r1 []) v r h
        have hs : s = 'd' :: r1 := (RemoveACharacter_ok_iff _ _ _).mp hrc
        subst hs
        simp only [callInput, List.length_cons] at h1 ⊢
        omega
    | objectLoop s acc =>
      simp only [parseF] at h
      cases hg : GetString s with
      | error e => simp only [hg] at h; exact Except.noConfusion h
      | ok p =>
        obtain ⟨key, r1⟩ := p
        simp only [hg] at h
        have hgl := GetString_length s key r1 hg
        cases hv : parseF n (.value r1) with
        | error e => simp only [hv] at h; exact Except.noConfusion h
        | ok q =>
          obtain ⟨v1, r2⟩ := q
          simp only [hv] at h
          have h1 := ih (.value r1) v1 r2 hv
          simp only [callInput] at h1
          cases hre : RemoveACharacter 'e' r2 with
          | ok r3 =>
            simp only [hre] at h
            obtain ⟨rfl, rfl⟩ := h
            have hr2 : r2 = 'e' :: r := (RemoveACharacter_ok_iff _ _ _).mp hre
            subst hr2
            simp only [callInput, List.length_cons] at h1 ⊢
            omega
          | error e =>
            simp only [hre] at h
            have h2 := ih (.objectLoop r2 (mapInsert acc key v1)) v r h
            simp only [callInput] at h2 ⊢
            omega

theorem parseF_append (n : Nat) : ∀ (c : ParseCall) (v : BValue) (r : List Char),
    parseF n c = .ok (v, r) → ∀ (m : Nat) (t : List Char), n ≤ m →
    parseF m (callAppend c t) = .ok (v, r ++ t) := by
  induction n with
  | zero => intro c v r h; simp [parseF] at h
  | succ n ih =>
    intro c v r h m t hm
    obtain ⟨m2, rfl⟩ : ∃ m2, m = m2 + 1 := ⟨m - 1, by omega⟩
    have hm2 : n ≤ m2 := by omega
    cases c with
    | value s =>
      cases s with
      | nil => exact absurd h (parseF_value_nil _ _)
      | cons c0 s2 =>
        simp only [parseF, PeekACharacter] at h
        simp only [callAppend, List.cons_append, parseF, PeekACharacter]
        split_ifs at h with hd hi hl hd2
        · rw [if_pos hd]
          have h2 := ParseString_append (c0 :: s2) t v r h
          rw [List.cons_append] at h2
          exact h2
        · rw [if_neg hd, if_pos hi]
          have h2 := ParseNumber_append (c0 :: s2) t v r h
          rw [List.cons_append] at h2
          exact h2
        · rw [if_neg hd, if_neg hi, if_pos hl]
          have h2 := ih (.array (c0 :: s2)) v r h m2 t hm2
          simpa [callAppend, List.cons_append] using h2
        · rw [if_neg hd, if_neg hi, if_neg hl, if_pos hd2]
          have h2 := ih (.object (c0 :: s2)) v r h m2 t hm2
          simpa [callAppend, List.cons_append] using h2
    | array s =>
      simp only [parseF] at h
      cases hrc : RemoveACharacter 'l' s with
      | error e => simp only [hrc] at h; exact Except.noConfusion h
      | ok r1 =>
        simp only [hrc] at h
        have hs : s = 'l' :: r1 := (RemoveACharacter_ok_iff _ _ _).mp hrc
        subst hs
        have hrc2 : RemoveACharacter 'l' ('l' :: (r1 ++ t)) = .ok (r1 ++ t) := by
          simp [RemoveACharacter]
        simp only [callAppend, List.cons_append, parseF, hrc2]
        have h2 := ih (.arrayLoop r1 []) v r h m2 t hm2
        simpa [callAppend] using h2
    | arrayLoop s acc =>
      simp only [parseF] at h
      cases hv : parseF n (.value s) with
      | error e => simp only [hv] at h; exact Except.noConfusion h
      | ok p =>
        obtain ⟨v1, r1⟩ := p
        simp only [hv] at h
        have hv2 := ih (.value s) v1 r1 hv m2 t hm2
        simp only [callAppend] at hv2
        simp only [callAppend, parseF, hv2]
        cases hre : RemoveACharacter 'e' r1 with
        | ok r2 =>
          simp only [hre] at h
          obtain ⟨rfl, rfl⟩ := h
          have hr1 : r1 = 'e' :: r := (RemoveACharacter_ok_iff _ _ _).mp hre
          subst hr1
          have hre2 : RemoveACharacter 'e' ('e' :: (r ++ t)) = .ok (r ++ t) := by
            simp [RemoveACharacter]
          simp only [List.cons_append, hre2]
        | error e =>
          simp only [hre] at h
          have hr1ne : r1 ≠ [] := by
            intro hnil
            subst hnil
            exact parseF_arrayLoop_nil n (acc ++ [v1]) (v, r) h
          obtain ⟨d, r1b, rfl⟩ : ∃ d r1b, r1 = d :: r1b := by
            cases r1 with
            | nil => exact absurd rfl hr1ne
            | cons d r1b => exact ⟨d, r1b, rfl⟩
          have hd_ne : d ≠ 'e' := RemoveACharacter_error_head 'e' d r1b e hre
          have hre2 : RemoveACharacter 'e' (d :: (r1b ++ t)) = .error "syntax error" := by
            simp [RemoveACharacter, hd_ne]
          simp only [List.cons_append, hre2]
          have h2 := ih (.arrayLoop (d :: r1b) (acc ++ [v1])) v r h m2 t hm2
          simpa [callAppend, List.cons_append] using h2
    | object s =>
      simp only [parseF] at h
      cases hrc : RemoveACharacter 'd' s with
      | error e => simp only [hrc] at h; exact Except.noConfusion h
      | ok r1 =>
        simp only [hrc] at h
        have hs : s = 'd' :: r1 := (RemoveACharacter_ok_iff _ _ _).mp hrc
        subst hs
        have hrc2 : RemoveACharacter 'd' ('d' :: (r1 ++ t)) = .ok (r1 ++ t) := by
          simp [RemoveACharacter]
        simp only [callAppend, List.cons_append, parseF, hrc2]
        have h2 := ih (.objectLoop r1 []) v r h m2 t hm2
        simpa [callAppend] using h2
    | objectLoop s acc =>
      simp only [parseF] at h
      cases hg : GetString s with
      | error e => simp only [hg] at h; exact Except.noConfusion h
      | ok p =>
        obtain ⟨key, r1⟩ := p
        simp only [hg] at h
        have hg2 := GetString_append s t key r1 hg
        simp only [callAppend, parseF, hg2]
        cases hv : parseF n (.value r1) with
        | error e => simp only [hv] at h; exact Except.noConfusion h
        | ok q =>
          obtain ⟨v1, r2⟩ := q
          simp only [hv] at h
          have hv2 := ih (.value r1) v1 r2 hv m2 t hm2
          simp only [callAppend] at hv2
          simp only [hv2]
          cases hre : RemoveACharacter 'e' r2 with
          | ok r3 =>
            simp only [hre] at h
            obtain ⟨rfl, rfl⟩ := h
            have hr2 : r2 = 'e' :: r := (RemoveACharacter_ok_iff _ _ _).mp hre
            subst hr2
            have hre2 : RemoveACharacter 'e' ('e' :: (r ++ t)) = .ok (r ++ t) := by
              simp [RemoveACharacter]
            simp only [List.cons_append, hre2]
          | error e =>
            simp only [hre] at h
            have hr2ne : r2 ≠ [] := by
              intro hnil
              subst hnil
              exact parseF_objectLoop_nil n (mapInsert acc key v1) (v, r) h
            obtain ⟨d, r2b, rfl⟩ : ∃ d r2b, r2 = d :: r2b := by
              cases r2 with
              | nil => exact absurd rfl hr2ne
              | cons d r2b => exact ⟨d, r2b, rfl⟩
            have hd_ne : d ≠ 'e' := RemoveACharacter_error_head 'e' d r2b e hre
            have hre2 : RemoveACharacter 'e' (d :: (r2b ++ t)) = .error "syntax error" := by
              simp [RemoveACharacter, hd_ne]
            simp only [List.cons_append, hre2]
            have h2 := ih (.objectLoop (d :: r2b) (mapInsert acc key v1)) v r h m2 t hm2
            simpa [callAppend, List.cons_append] using h2

/-- Fuel threshold under which a parser activation can never exhaust its fuel
(each recursive call either consumes input or moves to a call site charged
against bytes already consumed). -/
def callThreshold : ParseCall → Nat
  | .value s => 3 * s.length + 2
  | .array s => 3 * s.length + 1
  | .arrayLoop s _ => 3 * s.length + 3
  | .object s => 3 * s.length + 1
  | .objectLoop s _ => 3 * s.length + 3

theorem errChar_ne_fuelMsg (c : Char) : errChar c ≠ fuelMsg := by
  intro h
  have h2 : ("error character: ".data ++ natDigits c.toNat) = "out of fuel".data :=
    congrArg String.data h
  have he : "error character: ".data = 'e' :: "rror character: ".data := rfl
  have ho : "out of fuel".data = 'o' :: "ut of fuel".data := rfl
  rw [he, ho, List.cons_append] at h2
  simp at h2

theorem parseF_no_fuelMsg (n : Nat) : ∀ (c : ParseCall), callThreshold c ≤ n →
    parseF n c ≠ .error fuelMsg := by
  induction n with
  | zero => intro c hc; cases c <;> simp only [callThreshold] at hc <;> omega
  | succ n ih =>
    intro c hc
    cases c with
    | value s =>
      cases s with
      | nil =>
        intro h
        simp only [parseF, PeekACharacter] at h
        exact absurd (Except.error.inj h) (by decide)
      | cons c0 s2 =>
        simp only [callThreshold, List.length_cons] at hc
        intro h
        simp only [parseF, PeekACharacter] at h
        split_ifs at h with hd hi hl hd2
        · exact absurd (ParseString_error _ _ h) (by decide)
        · exact absurd (ParseNumber_error _ _ h) (by decide)
        · exact ih (.array (c0 :: s2))
            (by simp only [callThreshold, List.length_cons]; omega) h
        · exact ih (.object (c0 :: s2))
            (by simp only [callThreshold, List.length_cons]; omega) h
        · exact errChar_ne_fuelMsg c0 (Except.error.inj h)
    | array s =>
      intro h
      simp only [parseF] at h
      cases hrc : RemoveACharacter 'l' s with
      | error e =>
        simp only [hrc] at h
        exact absurd (Except.error.inj h) (by decide)
      | ok r1 =>
        simp only [hrc] at h
        have hs : s = 'l' :: r1 := (RemoveACharacter_ok_iff _ _ _).mp hrc
        subst hs
        simp only [callThreshold, List.length_cons] at hc
        exact ih (.arrayLoop r1 []) (by simp only [callThreshold]; omega) h
    | arrayLoop s acc =>
      intro h
      simp only [callThreshold] at hc
      simp only [parseF] at h
      cases hv : parseF n (.value s) with
      | error e =>
        simp only [hv] at h
        exact (ih (.value s) (by simp only [callThreshold]; omega))
          ((Except.error.inj h) ▸ hv)
      | ok p =>
        obtain ⟨v1, r1⟩ := p
        simp only [hv] at h
        have hcons := parseF_consume n (.value s) v1 r1 hv
        simp only [callInput] at hcons
        cases hre : RemoveACharacter 'e' r1 with
        | ok r2 => simp only [hre] at h; exact Except.noConfusion h
        | error e =>
          simp only [hre] at h
          exact ih (.arrayLoop r1 (acc ++ [v1])) (by simp only [callThreshold]; omega) h
    | object s =>
      intro h
      simp only [parseF] at h
      cases hrc : RemoveACharacter 'd' s with
      | error e =>
        simp only [hrc] at h
        exact absurd (Except.error.inj h) (by decide)
      | ok r1 =>
        simp only [hrc] at h
        have hs : s = 'd' :: r1 := (RemoveACharacter_ok_iff _ _ _).mp hrc
        subst hs
        simp only [callThreshold, List.length_cons] at hc
        exact ih (.objectLoop r1 []) (by simp only [callThreshold]; omega) h
    | objectLoop s acc =>
      intro h
      simp only [callThreshold] at hc
      simp only [parseF] at h
      cases hg : GetString s with
      | error e =>
        simp only [hg] at h
        have h3 : fuelMsg = "syntax error" := (Except.error.inj h) ▸ GetString_error s e hg
        exact absurd h3 (by decide)
      | ok p =>
        obtain ⟨key, r1⟩ := p
        simp only [hg] at h
        have hgl := GetString_length s key r1 hg
        cases hv : parseF n (.value r1) with
        | error e =>
          simp only [hv] at h
          exact (ih (.value r1) (by simp only [callThreshold]; omega))
            ((Except.error.inj h) ▸ hv)
        | ok q =>
          obtain ⟨v1, r2⟩ := q
          simp only [hv] at h
          have hcons := parseF_consume n (.value r1) v1 r2 hv
          simp only [callInput] at hcons
          cases hre : RemoveACharacter 'e' r2 with
          | ok r3 => simp only [hre] at h; exact Except.noConfusion h
          | error e =>
            simp only [hre] at h
            exact ih (.objectLoop r2 (mapInsert acc key v1))
              (by simp only [callThreshold]; omega) h

/-- Scalar values (byte strings and non-negative integers) whose sizes fit the
host representation: a Go string always has length at most `maxInt64`, and a
non-negative Go `int` is at most `maxInt64`. -/
def okScalarB : BValue → Bool
  | .str s => decide (s.length ≤ maxInt64)
  | .num k => decide (0 ≤ k) && decide (k ≤ (maxInt64 : Int))
  | .arr _ => false
  | .obj _ => false

theorem encode_scalar_head (v : BValue) (h : okScalarB v = true) :
    ∃ c cs, encode v = c :: cs ∧ c ≠ 'e' := by
  cases v with
  | str s =>
    cases hq : natDigits s.length with
    | nil => exact absurd hq (natDigits_ne_nil _)
    | cons c cs =>
      have hdc : isDigit c = true :=
        natDigits_all_digits s.length c (by rw [hq]; exact List.mem_cons_self _ _)
      refine ⟨c, cs ++ ':' :: s, ?_, ?_⟩
      · simp [encode, toBencodeString, hq]
      · intro hce
        subst hce
        exact absurd hdc (by decide)
  | num k =>
    exact ⟨'i', intRepr k ++ ['e'], by simp [encode], by decide⟩
  | arr vs => simp [okScalarB] at h
  | obj es => simp [okScalarB] at h

theorem parseF_scalar (v : BValue) (h : okScalarB v = true) (n : Nat) (rest : List Char) :
    parseF (n + 1) (.value (encode v ++ rest)) = .ok (v, rest) := by
  cases v with
  | str s =>
    have hs : s.length ≤ maxInt64 := by
      simpa [okScalarB] using h
    cases hq : natDigits s.length with
    | nil => exact absurd hq (natDigits_ne_nil _)
    | cons c cs =>
      have hdc : isDigit c = true :=
        natDigits_all_digits s.length c (by rw [hq]; exact List.mem_cons_self _ _)
      have hsh : encode (.str s) ++ rest = c :: (cs ++ ':' :: (s ++ rest)) := by
        simp [encode, toBencodeString, hq]
      rw [hsh]
      simp only [parseF, PeekACharacter]
      rw [if_pos hdc, ← hsh]
      have hsh2 : encode (.str s) = toBencodeString s := rfl
      rw [hsh2]
      exact ParseString_complete s rest hs
  | num k =>
    have hk : 0 ≤ k ∧ k ≤ (maxInt64 : Int) := by
      constructor <;> [exact of_decide_eq_true (Bool.and_elim_left h);
        exact of_decide_eq_true (Bool.and_elim_right h)]
    have hrepr : intRepr k = natDigits k.toNat := by
      simp [intRepr, not_lt.mpr hk.1]
    have hsh : encode (.num k) ++ rest = 'i' :: (natDigits k.toNat ++ 'e' :: rest) := by
      simp [encode, hrepr]
    rw [hsh]
    have hif : parseF (n + 1) (.value ('i' :: (natDigits k.toNat ++ 'e' :: rest))) =
        ParseNumber ('i' :: (natDigits k.toNat ++ 'e' :: rest)) := by
      simp [parseF, PeekACharacter, show isDigit 'i' = false from by decide]
    rw [hif]
    have hbound : k.toNat ≤ maxInt64 := by omega
    have hres := ParseNumber_complete k.toNat rest hbound
    rw [Int.toNat_of_nonneg hk.1] at hres
    exact hres
  | arr vs => simp [okScalarB] at h
  | obj es => simp [okScalarB] at h

theorem parseF_arrayLoop_scalars (vs : List BValue) :
    ∀ (n : Nat) (acc : List BValue) (rest : List Char), vs ≠ [] →
    (∀ v ∈ vs, okScalarB v = true) → vs.length + 1 ≤ n →
    parseF n (.arrayLoop (encodeList vs ++ 'e' :: rest) acc) = .ok (.arr (acc ++ vs), rest) := by
  induction vs with
  | nil => intro n acc rest hne; exact absurd rfl hne
  | cons v vs2 ih =>
    intro n acc rest hne hall hn
    have hlen : vs2.length + 2 ≤ n := by
      simpa [List.length_cons] using hn
    obtain ⟨n2, rfl⟩ : ∃ n2, n = n2 + 1 := ⟨n - 1, by omega⟩
    have hv : okScalarB v = true := hall v (by simp)
    have hshape : encodeList (v :: vs2) ++ 'e' :: rest
        = encode v ++ (encodeList vs2 ++ 'e' :: rest) := by
      simp [encodeList, List.append_assoc]
    rw [hshape]
    simp only [parseF]
    obtain ⟨n3, rfl⟩ : ∃ n3, n2 = n3 + 1 := ⟨n2 - 1, by omega⟩
    simp only [parseF_scalar v hv n3 (encodeList vs2 ++ 'e' :: rest)]
    cases vs2 with
    | nil =>
      have hre : RemoveACharacter 'e' (encodeList [] ++ 'e' :: rest) = .ok rest := by
        simp [encodeList, RemoveACharacter]
      simp only [hre]
    | cons w vs3 =>
      have hw : okScalarB w = true := hall w (by simp)
      obtain ⟨cw, cws, hwshape, hwne⟩ := encode_scalar_head w hw
      have hre : RemoveACharacter 'e' (encodeList (w :: vs3) ++ 'e' :: rest) =
          .error "syntax error" := by
        have hsh2 : encodeList (w :: vs3) ++ 'e' :: rest
            = cw :: (cws ++ (encodeList vs3 ++ 'e' :: rest)) := by
          simp [encodeList, hwshape, List.append_assoc]
        rw [hsh2]
        simp [RemoveACharacter, hwne]
      simp only [hre]
      have h2 := ih (n3 + 1) (acc ++ [v]) rest (by simp)
        (fun u hu => hall u (by simp [hu])) (by simp at hlen ⊢; omega)
      rw [h2]
      simp

theorem encode_scalar_len (v : BValue) (h : okScalarB v = true) : 2 ≤ (encode v).length := by
  cases v with
  | str s =>
    have h1 : 0 < (natDigits s.length).length :=
      List.length_pos.mpr (natDigits_ne_nil s.length)
    simp only [encode, toBencodeString, List.length_append, List.length_cons]
    omega
  | num k =>
    simp only [encode, List.length_cons, List.length_append]
    omega
  | arr vs => simp [okScalarB] at h
  | obj es => simp [okScalarB] at h

theorem encodeList_scalar_len (vs : List BValue) (hall : ∀ v ∈ vs, okScalarB v = true) :
    2 * vs.length ≤ (encodeList vs).length := by
  induction vs with
  | nil => simp [encodeList]
  | cons v vs2 ih =>
    have h1 := encode_scalar_len v (hall v (by simp))
    have h2 := ih (fun u hu => hall u (by simp [hu]))
    simp only [encodeList, List.length_append, List.length_cons]
    omega

/-- C1: the spec asserts `decode("le")` is an empty List and `decode("de")` an
empty Dictionary.  The code rejects both (its container loops parse one element
before ever checking for the closing `e`), so only the encoding half of the
claim holds: `Encode` of an empty List (resp. Dictionary) is `"le"`
(resp. `"de"`), but `Decode "le"` fails with `error character: 101` and
`Decode "de"` fails with a syntax error. -/
theorem claim1_empty_containers :
    Decode "le" = .error "error character: 101" ∧
    Decode "de" = .error "syntax error" ∧
    BValue.Encode (.arr []) = "le" ∧
    BValue.Encode (.obj []) = "de" :=
  ⟨rfl, rfl, rfl, rfl⟩

/-- C2: round-trip for scalars.  For every byte string `s` (of host-representable
length, as every Go string is) decoding the encoding of `ByteString s` gives
`ByteString s` back, and for every integer `0 ≤ k ≤ 2^63 - 1` decoding the
encoding of `Integer k` gives `Integer k` back. -/
theorem claim2_scalar_roundtrip (s : List Char) (k : Int)
    (hs : s.length ≤ maxInt64) (hk0 : 0 ≤ k) (hk : k ≤ (maxInt64 : Int)) :
    Decode (BValue.Encode (.str s)) = .ok (.str s) ∧
    Decode (BValue.Encode (.num k)) = .ok (.num k) := by
  constructor
  · show decodeL (encode (.str s)) = .ok (.str s)
    have h1 := parseF_scalar (.str s) (by simp [okScalarB, hs])
      (3 * (encode (.str s)).length + 1) []
    rw [List.append_nil] at h1
    simp only [decodeL, ParseValue]
    rw [show 3 * (encode (.str s)).length + 2
      = 3 * (encode (.str s)).length + 1 + 1 from rfl]
    rw [h1]
  · show decodeL (encode (.num k)) = .ok (.num k)
    have hok : okScalarB (.num k) = true := by
      simp only [okScalarB, Bool.and_eq_true, decide_eq_true_eq]
      exact ⟨hk0, hk⟩
    have h1 := parseF_scalar (.num k) hok (3 * (encode (.num k)).length + 1) []
    rw [List.append_nil] at h1
    simp only [decodeL, ParseValue]
    rw [show 3 * (encode (.num k)).length + 2
      = 3 * (encode (.num k)).length + 1 + 1 from rfl]
    rw [h1]

/-- Witness for C2 at `s = "spam"` and `k = 3`. -/
theorem claim2_scalar_roundtrip_witness :
    Decode (BValue.Encode (.str "spam".data)) = .ok (.str "spam".data) ∧
    Decode (BValue.Encode (.num 3)) = .ok (.num 3) :=
  claim2_scalar_roundtrip "spam".data 3 (by decide) (by decide) (by decide)

/-- C3 counterexample: the claim includes the empty sequence, but decoding the
encoding of an empty List (the two bytes `le`) fails with `error character:
101` instead of returning the empty List. -/
theorem claim3_empty_list_fails :
    Decode (BValue.Encode (.arr [])) = .error "error character: 101" := rfl

/-- C3 (amended): for every NON-EMPTY finite sequence of scalar values
(byte strings and non-negative 64-bit integers), decoding the encoding of the
List gives back a List with the same elements in the same order; the empty
sequence is excluded because its encoding `le` fails to decode. -/
theorem claim3_list_roundtrip (vs : List BValue) (hne : vs ≠ [])
    (hall : ∀ v ∈ vs, okScalarB v = true) :
    Decode (BValue.Encode (.arr vs)) = .ok (.arr vs) := by
  show decodeL (encode (.arr vs)) = .ok (.arr vs)
  have hlen : 2 * vs.length ≤ (encodeList vs).length := encodeList_scalar_len vs hall
  have hshape : encode (.arr vs) = 'l' :: (encodeList vs ++ ['e']) := rfl
  have hmain : ∀ n, vs.length + 3 ≤ n →
      parseF n (.value ('l' :: (encodeList vs ++ ['e']))) = .ok (.arr vs, []) := by
    intro n hn
    obtain ⟨n2, rfl⟩ : ∃ n2, n = n2 + 1 := ⟨n - 1, by omega⟩
    have hif : parseF (n2 + 1) (.value ('l' :: (encodeList vs ++ ['e'])))
        = parseF n2 (.array ('l' :: (encodeList vs ++ ['e']))) := by
      simp [parseF, PeekACharacter, show isDigit 'l' = false from by decide]
    rw [hif]
    obtain ⟨n3, rfl⟩ : ∃ n3, n2 = n3 + 1 := ⟨n2 - 1, by omega⟩
    simp only [parseF]
    have hrl : RemoveACharacter 'l' ('l' :: (encodeList vs ++ ['e']))
        = .ok (encodeList vs ++ ['e']) := by simp [RemoveACharacter]
    simp only [hrl]
    have hcons : encodeList vs ++ ['e'] = encodeList vs ++ 'e' :: ([] : List Char) := rfl
    rw [hcons]
    rw [parseF_arrayLoop_scalars vs n3 [] [] hne hall (by omega)]
    simp
  simp only [decodeL, ParseValue]
  rw [hshape]
  rw [hmain _ (by simp only [List.length_cons, List.length_append, List.length_singleton]; omega)]

/-- Witness for C3 (amended) at the two-element list `[ByteString "a", Integer 7]`,
together with the counterexample input being the empty list. -/
theorem claim3_list_roundtrip_witness :
    Decode (BValue.Encode (.arr [.str "a".data, .num 7]))
      = .ok (.arr [.str "a".data, .num 7]) :=
  claim3_list_roundtrip [.str "a".data, .num 7] (by simp) (by decide)

/-- C4: if the input begins with a complete well-formed value (a prefix `p` that
the parser consumes exactly, yielding `v`), then `Decode` of `p` followed by any
trailing bytes succeeds and returns `v`, ignoring the trailing bytes. -/
theorem claim4_trailing_ignored (p junk : List Char) (v : BValue)
    (h : parseF (3 * p.length + 2) (.value p) = .ok (v, [])) :
    decodeL (p ++ junk) = .ok v := by
  have h2 := parseF_append (3 * p.length + 2) (.value p) v [] h
    (3 * (p ++ junk).length + 2) junk (by simp only [List.length_append]; omega)
  simp only [callAppend, List.nil_append] at h2
  simp only [decodeL, ParseValue, h2]

/-- Witness for C4: `Decode "4:spamJUNK"` yields `ByteString "spam"`. -/
theorem claim4_trailing_ignored_witness :
    decodeL ("4:spam".data ++ "JUNK".data) = .ok (.str "spam".data) :=
  claim4_trailing_ignored "4:spam".data "JUNK".data (.str "spam".data) rfl

/-- C5: every negative-integer production is rejected: for any digit string
(indeed for any characters at all) between `i-` and the final `e`, `Decode`
fails with a syntax error; in particular `Decode "i-3e"` fails. -/
theorem claim5_negative_rejected (ds : List Char) :
    decodeL ('i' :: '-' :: (ds ++ ['e'])) = .error "syntax error" ∧
    Decode "i-3e" = .error "syntax error" := by
  refine ⟨?_, rfl⟩
  simp only [decodeL, ParseValue]
  rw [show 3 * (('i' :: '-' :: (ds ++ ['e'])).length) + 2
    = 3 * (('i' :: '-' :: (ds ++ ['e'])).length) + 1 + 1 from rfl]
  have hif : parseF (3 * (('i' :: '-' :: (ds ++ ['e'])).length) + 1 + 1)
      (.value ('i' :: '-' :: (ds ++ ['e'])))
      = ParseNumber ('i' :: '-' :: (ds ++ ['e'])) := by
    simp [parseF, PeekACharacter, show isDigit 'i' = false from by decide]
  rw [hif]
  have hpn : ParseNumber ('i' :: '-' :: (ds ++ ['e'])) = .error "syntax error" := by
    simp [ParseNumber, RemoveACharacter, List.takeWhile_cons,
      show isDigit '-' = false from by decide, parseInt64]
  rw [hpn]

/-- C6: on a well-formed dictionary input with a duplicated key, the decoder
keeps only the last occurrence's value: `Decode "d1:ai1e1:ai2ee"` yields the
Dictionary mapping "a" to Integer 2. -/
theorem claim6_duplicate_keys :
    Decode "d1:ai1e1:ai2ee" = .ok (.obj [("a".data, .num 2)]) := rfl

/-- C7: decoding an unterminated container fails with a syntax error rather
than looping forever or returning a partial list: `Decode "l4:spam"` (missing
the closing `e`) is a syntax error. -/
theorem claim7_unterminated_container :
    Decode "l4:spam" = .error "syntax error" := rfl

/-- C10: the parser terminates on every input: with fuel at least
`3 * length + 2` (exactly what `Decode` supplies) the fuel-exhaustion branch is
unreachable — the run ends in a value or a syntax error after finitely many
steps — and every successful `ParseValue` run consumes at least one character,
which is why the `ParseArray`/`ParseObject` loops strictly shrink their input
and cannot run forever. -/
theorem claim10_termination (s : List Char) (n : Nat) (h : 3 * s.length + 2 ≤ n) :
    parseF n (.value s) ≠ .error fuelMsg ∧
    (∀ v r, parseF n (.value s) = .ok (v, r) → r.length < s.length) := by
  constructor
  · exact parseF_no_fuelMsg n (.value s) (by simpa [callThreshold] using h)
  · intro v r hok
    have h2 := parseF_consume n (.value s) v r hok
    simpa [callInput] using h2

/-- Witness for C10 at the input `"i3e"` with fuel 11. -/
theorem claim10_termination_witness :
    parseF 11 (.value "i3e".data) ≠ .error fuelMsg ∧
    (∀ v r, parseF 11 (.value "i3e".data) = .ok (v, r) → r.length < "i3e".data.length) :=
  claim10_termination "i3e".data 11 (by decide)

mutual

theorem GoValue_Encode_total : ∀ (g : GoValue), g.kindValid = true →
    (GoValue.Encode g).isSome = true
  | .mk k s n arr obj, h => by
    simp only [GoValue.kindValid, Bool.and_eq_true, Bool.or_eq_true,
      decide_eq_true_eq] at h
    obtain ⟨⟨hk, hl⟩, ho⟩ := h
    rcases hk with ((h0 | h1) | h2) | h3
    · subst h0
      simp [GoValue.Encode, KindString]
    · subst h1
      simp [GoValue.Encode, KindString, KindNumber]
    · subst h2
      have hbody := encodeGoList_total arr hl
      obtain ⟨body, hb⟩ := Option.isSome_iff_exists.mp hbody
      simp [GoValue.Encode, KindString, KindNumber, KindArray, hb]
    · subst h3
      have hbody := encodeGoEntries_total obj ho
      obtain ⟨body, hb⟩ := Option.isSome_iff_exists.mp hbody
      simp [GoValue.Encode, KindString, KindNumber, KindArray, KindObject, hb]

theorem encodeGoList_total : ∀ (l : List GoValue), kindValidList l = true →
    (encodeGoList l).isSome = true
  | [], _ => rfl
  | v :: vs, h => by
    simp only [kindValidList, Bool.and_eq_true] at h
    obtain ⟨a, ha⟩ := Option.isSome_iff_exists.mp (GoValue_Encode_total v h.1)
    obtain ⟨b, hb⟩ := Option.isSome_iff_exists.mp (encodeGoList_total vs h.2)
    simp [encodeGoList, ha, hb]

theorem encodeGoEntries_total : ∀ (l : List (List Char × GoValue)),
    kindValidEntries l = true → (encodeGoEntries l).isSome = true
  | [], _ => rfl
  | (key, v) :: es, h => by
    simp only [kindValidEntries, Bool.and_eq_true] at h
    obtain ⟨a, ha⟩ := Option.isSome_iff_exists.mp (GoValue_Encode_total v h.1)
    obtain ⟨b, hb⟩ := Option.isSome_iff_exists.mp (encodeGoEntries_total es h.2)
    simp [encodeGoEntries, ha, hb]

end

mutual

theorem GoValue_Prettify_total : ∀ (g : GoValue), g.kindValid = true →
    (GoValue.Prettify g).isSome = true
  | .mk k s n arr obj, h => by
    simp only [GoValue.kindValid, Bool.and_eq_true, Bool.or_eq_true,
      decide_eq_true_eq] at h
    obtain ⟨⟨hk, hl⟩, ho⟩ := h
    rcases hk with ((h0 | h1) | h2) | h3
    · subst h0
      simp [GoValue.Prettify, KindString]
    · subst h1
      simp [GoValue.Prettify, KindString, KindNumber]
    · subst h2
      have hbody := prettifyGoList_total arr hl
      obtain ⟨body, hb⟩ := Option.isSome_iff_exists.mp hbody
      simp [GoValue.Prettify, KindString, KindNumber, KindArray, hb]
    · subst h3
      have hbody := prettifyGoEntries_total obj ho
      obtain ⟨body, hb⟩ := Option.isSome_iff_exists.mp hbody
      simp [GoValue.Prettify, KindString, KindNumber, KindArray, KindObject, hb]

theorem prettifyGoList_total : ∀ (l : List GoValue), kindValidList l = true →
    (prettifyGoList l).isSome = true
  | [], _ => rfl
  | v :: vs, h => by
    simp only [kindValidList, Bool.and_eq_true] at h
    obtain ⟨a, ha⟩ := Option.isSome_iff_exists.mp (GoValue_Prettify_total v h.1)
    obtain ⟨b, hb⟩ := Option.isSome_iff_exists.mp (prettifyGoList_total vs h.2)
    simp [prettifyGoList, ha, hb]

theorem prettifyGoEntries_total : ∀ (l : List (List Char × GoValue)),
    kindValidEntries l = true → (prettifyGoEntries l).isSome = true
  | [], _ => rfl
  | (key, v) :: es, h => by
    simp only [kindValidEntries, Bool.and_eq_true] at h
    obtain ⟨a, ha⟩ := Option.isSome_iff_exists.mp (GoValue_Prettify_total v h.1)
    obtain ⟨b, hb⟩ := Option.isSome_iff_exists.mp (prettifyGoEntries_total es h.2)
    simp [prettifyGoEntries, ha, hb]

end

/-- C8: `Encode` and `Prettify` are total on every struct value whose `Kind`
field is one of the four declared constants and whose nested elements all
satisfy the same condition: both return a result, so the
`panic("impossible")` fallback (the `none` branch) is unreachable for such
values. -/
theorem claim8_encode_prettify_total (g : GoValue) (h : g.kindValid = true) :
    (GoValue.Encode g).isSome = true ∧ (GoValue.Prettify g).isSome = true :=
  ⟨GoValue_Encode_total g h, GoValue_Prettify_total g h⟩

/-- Witness for C8 at a two-element array value holding a string and a number. -/
theorem claim8_encode_prettify_total_witness :
    (GoValue.Encode (GoValue.mk 2 [] 0
        [GoValue.mk 0 "x".data 0 [] [], GoValue.mk 1 [] 5 [] []] [])).isSome = true ∧
    (GoValue.Prettify (GoValue.mk 2 [] 0
        [GoValue.mk 0 "x".data 0 [] [], GoValue.mk 1 [] 5 [] []] [])).isSome = true :=
  claim8_encode_prettify_total
    (GoValue.mk 2 [] 0 [GoValue.mk 0 "x".data 0 [] [], GoValue.mk 1 [] 5 [] []] []) rfl

mutual

theorem NewArray_error_msg : ∀ (xs : List HostVal) (e : String),
    NewArray xs = .error e → e = unsupportedMsg
  | xs, e, h => by
    simp only [NewArray] at h
    cases hq : newArrayElems xs with
    | error e2 =>
      simp only [hq] at h
      exact (Except.error.inj h) ▸ newArrayElems_error_msg xs e2 hq
    | ok vs => simp only [hq] at h; exact Except.noConfusion h

theorem newArrayElems_error_msg : ∀ (xs : List HostVal) (e : String),
    newArrayElems xs = .error e → e = unsupportedMsg
  | [], e, h => by simp [newArrayElems] at h
  | .int n :: rest, e, h => by
    simp only [newArrayElems] at h
    cases hq : newArrayElems rest with
    | error e2 =>
      simp only [hq] at h
      exact (Except.error.inj h) ▸ newArrayElems_error_msg rest e2 hq
    | ok vs => simp only [hq] at h; exact Except.noConfusion h
  | .str s :: rest, e, h => by
    simp only [newArrayElems] at h
    cases hq : newArrayElems rest with
    | error e2 =>
      simp only [hq] at h
      exact (Except.error.inj h) ▸ newArrayElems_error_msg rest e2 hq
    | ok vs => simp only [hq] at h; exact Except.noConfusion h
  | .arr ys :: rest, e, h => by
    simp only [newArrayElems] at h
    cases hq : NewArray ys with
    | error e2 =>
      simp only [hq] at h
      exact (Except.error.inj h) ▸ NewArray_error_msg ys e2 hq
    | ok v =>
      simp only [hq] at h
      cases hq2 : newArrayElems rest with
      | error e2 =>
        simp only [hq2] at h
        exact (Except.error.inj h) ▸ newArrayElems_error_msg rest e2 hq2
      | ok vs => simp only [hq2] at h; exact Except.noConfusion h
  | .map kvs :: rest, e, h => by
    simp only [newArrayElems] at h
    cases hq : NewObject kvs with
    | error e2 =>
      simp only [hq] at h
      exact (Except.error.inj h) ▸ NewObject_error_msg kvs e2 hq
    | ok v =>
      simp only [hq] at h
      cases hq2 : newArrayElems rest with
      | error e2 =>
        simp only [hq2] at h
        exact (Except.error.inj h) ▸ newArrayElems_error_msg rest e2 hq2
      | ok vs => simp only [hq2] at h; exact Except.noConfusion h
  | .other :: rest, e, h => by
    simp only [newArrayElems] at h
    exact (Except.error.inj h).symm

theorem NewObject_error_msg : ∀ (kvs : List (List Char × HostVal)) (e : String),
    NewObject kvs = .error e → e = unsupportedMsg
  | kvs, e, h => by
    simp only [NewObject] at h
    cases hq : newObjectEntries kvs with
    | error e2 =>
      simp only [hq] at h
      exact (Except.error.inj h) ▸ newObjectEntries_error_msg kvs e2 hq
    | ok es => simp only [hq] at h; exact Except.noConfusion h

theorem newObjectEntries_error_msg : ∀ (kvs : List (List Char × HostVal)) (e : String),
    newObjectEntries kvs = .error e → e = unsupportedMsg
  | [], e, h => by simp [newObjectEntries] at h
  | (key, .int n) :: rest, e, h => by
    simp only [newObjectEntries] at h
    cases hq : newObjectEntries rest with
    | error e2 =>
      simp only [hq] at h
      exact (Except.error.inj h) ▸ newObjectEntries_error_msg rest e2 hq
    | ok es => simp only [hq] at h; exact Except.noConfusion h
  | (key, .str s) :: rest, e, h => by
    simp only [newObjectEntries] at h
    cases hq : newObjectEntries rest with
    | error e2 =>
      simp only [hq] at h
      exact (Except.error.inj h) ▸ newObjectEntries_error_msg rest e2 hq
    | ok es => simp only [hq] at h; exact Except.noConfusion h
  | (key, .arr ys) :: rest, e, h => by
    simp only [newObjectEntries] at h
    cases hq : NewArray ys with
    | error e2 =>
      simp only [hq] at h
      exact (Except.error.inj h) ▸ NewArray_error_msg ys e2 hq
    | ok v =>
      simp only [hq] at h
      cases hq2 : newObjectEntries rest with
      | error e2 =>
        simp only [hq2] at h
        exact (Except.error.inj h) ▸ newObjectEntries_error_msg rest e2 hq2
      | ok es => simp only [hq2] at h; exact Except.noConfusion h
  | (key, .map kvs2) :: rest, e, h => by
    simp only [newObjectEntries] at h
    cases hq : NewObject kvs2 with
    | error e2 =>
      simp only [hq] at h
      exact (Except.error.inj h) ▸ NewObject_error_msg kvs2 e2 hq
    | ok v =>
      simp only [hq] at h
      cases hq2 : newObjectEntries rest with
      | error e2 =>
        simp only [hq2] at h
        exact (Except.error.inj h) ▸ newObjectEntries_error_msg rest e2 hq2
      | ok es => simp only [hq2] at h; exact Except.noConfusion h
  | (key, .other) :: rest, e, h => by
    simp only [newObjectEntries] at h
    exact (Except.error.inj h).symm

end

mutual

theorem NewArray_fails : ∀ (xs : List HostVal), hasOtherList xs = true →
    NewArray xs = .error unsupportedMsg
  | xs, h => by
    simp only [NewArray, newArrayElems_fails xs h]

theorem newArrayElems_fails : ∀ (xs : List HostVal), hasOtherList xs = true →
    newArrayElems xs = .error unsupportedMsg
  | [], h => by simp [hasOtherList] at h
  | .int n :: rest, h => by
    have h2 : hasOtherList rest = true := by
      simpa [hasOtherList, hasOther] using h
    simp only [newArrayElems, newArrayElems_fails rest h2]
  | .str s :: rest, h => by
    have h2 : hasOtherList rest = true := by
      simpa [hasOtherList, hasOther] using h
    simp only [newArrayElems, newArrayElems_fails rest h2]
  | .arr ys :: rest, h => by
    simp only [hasOtherList, hasOther, Bool.or_eq_true] at h
    rcases h with hy | hr
    · simp only [newArrayElems, NewArray_fails ys hy]
    · cases hq : NewArray ys with
      | error e2 =>
        simp only [newArrayElems, hq, NewArray_error_msg ys e2 hq]
      | ok v =>
        simp only [newArrayElems, hq, newArrayElems_fails rest hr]
  | .map kvs :: rest, h => by
    simp only [hasOtherList, hasOther, Bool.or_eq_true] at h
    rcases h with hy | hr
    · simp only [newArrayElems, NewObject_fails kvs hy]
    · cases hq : NewObject kvs with
      | error e2 =>
        simp only [newArrayElems, hq, NewObject_error_msg kvs e2 hq]
      | ok v =>
        simp only [newArrayElems, hq, newArrayElems_fails rest hr]
  | .other :: rest, _ => by
    simp [newArrayElems]

theorem NewObject_fails : ∀ (kvs : List (List Char × HostVal)), hasOtherEntries kvs = true →
    NewObject kvs = .error unsupportedMsg
  | kvs, h => by
    simp only [NewObject, newObjectEntries_fails kvs h]

theorem newObjectEntries_fails : ∀ (kvs : List (List Char × HostVal)),
    hasOtherEntries kvs = true → newObjectEntries kvs = .error unsupportedMsg
  | [], h => by simp [hasOtherEntries] at h
  | (key, .int n) :: rest, h => by
    have h2 : hasOtherEntries rest = true := by
      simpa [hasOtherEntries, hasOther] using h
    simp only [newObjectEntries, newObjectEntries_fails rest h2]
  | (key, .str s) :: rest, h => by
    have h2 : hasOtherEntries rest = true := by
      simpa [hasOtherEntries, hasOther] using h
    simp only [newObjectEntries, newObjectEntries_fails rest h2]
  | (key, .arr ys) :: rest, h => by
    simp only [hasOtherEntries, hasOther, Bool.or_eq_true] at h
    rcases h with hy | hr
    · simp only [newObjectEntries, NewArray_fails ys hy]
    · cases hq : NewArray ys with
      | error e2 =>
        simp only [newObjectEntries, hq, NewArray_error_msg ys e2 hq]
      | ok v =>
        simp only [newObjectEntries, hq, newObjectEntries_fails rest hr]
  | (key, .map kvs2) :: rest, h => by
    simp only [hasOtherEntries, hasOther, Bool.or_eq_true] at h
    rcases h with hy | hr
    · simp only [newObjectEntries, NewObject_fails kvs2 hy]
    · cases hq : NewObject kvs2 with
      | error e2 =>
        simp only [newObjectEntries, hq, NewObject_error_msg kvs2 e2 hq]
      | ok v =>
        simp only [newObjectEntries, hq, newObjectEntries_fails rest hr]
  | (key, .other) :: rest, _ => by
    simp [newObjectEntries]

end

/-- C9: whenever a host literal fed to `NewArray` or `NewObject` contains a
value that is not an int, a string, a generic sequence or a string-keyed
generic mapping, the helper fails by returning the unsupported-type error
`only support int, string, slice and map` and returns no value. -/
theorem claim9_unsupported_type (xs : List HostVal) (kvs : List (List Char × HostVal))
    (hx : hasOtherList xs = true) (hk : hasOtherEntries kvs = true) :
    NewArray xs = .error unsupportedMsg ∧ NewObject kvs = .error unsupportedMsg :=
  ⟨NewArray_fails xs hx, NewObject_fails kvs hk⟩

/-- Witness for C9: a sequence and a mapping each holding one unsupported value. -/
theorem claim9_unsupported_type_witness :
    NewArray [.other] = .error unsupportedMsg ∧
    NewObject [("k".data, .other)] = .error unsupportedMsg :=
  claim9_unsupported_type [.other] [("k".data, .other)] rfl rfl
